import Mathlib

/- Shallow embedding of app/main.py: a FastAPI + SQLAlchemy service managing
`Pessoa` rows under optimistic concurrency control with an append-only
`PessoaEvent` log.  Python dicts over the fixed key set of the `pessoa`
table are modelled by `JDict` (a `none` field is an absent key); `date`
values travel as their ISO strings, since the source converts them with
`isoformat`/`fromisoformat`, an exact round trip; `func.now()` timestamps
are modelled by a logical clock carried in the database state.  SQLAlchemy
`one_or_none` lookups are modelled by `List.find?` (the primary-key and
version lookups used here return at most one row on the states this
development quantifies over). -/

/-- JSON object over the fixed key universe that app/main.py ever puts in a
dict (`pessoa_to_dict`, `state_after`, `changes`); a `none` field is an
absent key. -/
structure JDict where
  id : Option Int := none
  nome : Option String := none
  cpf : Option String := none
  data_nascimento : Option String := none
  version : Option Int := none
  deleted : Option Bool := none
  updated_at : Option Int := none
  deriving Repr, DecidableEq

/-- One key of a dict update: the value from `changes` wins when the key is
present, otherwise the base value is kept. -/
def overwrite {α : Type} : Option α → Option α → Option α
  | some v, _ => some v
  | none, b => b

/-- `apply_changes` (app/main.py lines 97-101): copy of the base dict with
every key present in `changes` overwritten by the `changes` value
(last-writer-wins per field). -/
def apply_changes (base_state changes : JDict) : JDict where
  id := overwrite changes.id base_state.id
  nome := overwrite changes.nome base_state.nome
  cpf := overwrite changes.cpf base_state.cpf
  data_nascimento := overwrite changes.data_nascimento base_state.data_nascimento
  version := overwrite changes.version base_state.version
  deleted := overwrite changes.deleted base_state.deleted
  updated_at := overwrite changes.updated_at base_state.updated_at

/-- Python `if not d:` on a dict: true when no key is present. -/
def JDict.isEmpty (d : JDict) : Bool :=
  d.id.isNone && d.nome.isNone && d.cpf.isNone && d.data_nascimento.isNone &&
    d.version.isNone && d.deleted.isNone && d.updated_at.isNone

/-- Agreement of two dicts on the content keys (the columns a `changes`
delta can mention): `id`, `nome`, `cpf`, `data_nascimento`, `deleted`. -/
def content_eq (d₁ d₂ : JDict) : Prop :=
  d₁.id = d₂.id ∧ d₁.nome = d₂.nome ∧ d₁.cpf = d₂.cpf ∧
    d₁.data_nascimento = d₂.data_nascimento ∧ d₁.deleted = d₂.deleted

instance (d₁ d₂ : JDict) : Decidable (content_eq d₁ d₂) := by
  unfold content_eq; infer_instance

/-- Row of the `pessoa` table (app/main.py lines 31-42). -/
structure Pessoa where
  id : Int
  nome : String
  cpf : String
  data_nascimento : String
  version : Int
  deleted : Bool
  updated_at : Int
  created_at : Int
  deriving Repr, DecidableEq

/-- Row of the `pessoa_event` table (app/main.py lines 44-56). -/
structure PessoaEvent where
  id : Int
  pessoa_id : Int
  base_version : Int
  new_version : Int
  changes : JDict
  state_after : JDict
  created_at : Int
  deriving Repr, DecidableEq

/-- `PessoaCreate` request schema (app/main.py lines 70-73). -/
structure PessoaCreate where
  nome : String
  cpf : String
  data_nascimento : String
  deriving Repr, DecidableEq

/-- `PessoaPatch` request schema (app/main.py lines 75-79): the version the
client believes plus optional new field values. -/
structure PessoaPatch where
  version : Int
  nome : Option String := none
  cpf : Option String := none
  data_nascimento : Option String := none
  deriving Repr, DecidableEq

/-- The `HTTPException`s raised by app/main.py, one constructor per raise
site; `keyError` stands for a Python `KeyError` escaping as a 500. -/
inductive ApiError where
  | notFound
  | invalidVersion
  | cpfConflict
  | versionNotFound
  | versionAhead
  | staleDelete
  | keyError
  deriving Repr, DecidableEq

/-- HTTP status attached to each raise site in app/main.py. -/
def ApiError.status : ApiError → Nat
  | .notFound => 404
  | .invalidVersion => 400
  | .cpfConflict => 409
  | .versionNotFound => 409
  | .versionAhead => 409
  | .staleDelete => 409
  | .keyError => 500

/-- Database state: the two tables plus the autoincrement counters and the
logical clock standing in for `func.now()`. -/
structure DB where
  pessoas : List Pessoa
  events : List PessoaEvent
  next_pessoa_id : Int
  next_event_id : Int
  clock : Int
  deriving Repr, DecidableEq

def init_db : DB :=
  { pessoas := [], events := [], next_pessoa_id := 1, next_event_id := 1, clock := 0 }

/-- The lookup shared by `get_pessoa`, `patch_pessoa` and `delete_pessoa`
(app/main.py lines 187, 231, 320): the row with this id that is not
soft-deleted. -/
def find_active_pessoa (db : DB) (pessoa_id : Int) : Option Pessoa :=
  db.pessoas.find? fun p => p.id == pessoa_id && !p.deleted

/-- The ORM in-place row update followed by commit: the row with the same
primary key is replaced. -/
def commit_pessoa (db : DB) (p' : Pessoa) : DB :=
  { db with pessoas := db.pessoas.map fun q => if q.id == p'.id then p' else q }

/-- `pessoa_to_dict` (app/main.py lines 83-92). -/
def pessoa_to_dict (p : Pessoa) : JDict where
  id := some p.id
  nome := some p.nome
  cpf := some p.cpf
  data_nascimento := some p.data_nascimento
  version := some p.version
  deleted := some p.deleted
  updated_at := some p.updated_at

/-- `persist_event` (app/main.py lines 137-155): appends one event whose
`state_after` is the snapshot of the already-updated row (the inline dict
in the source is field-for-field `pessoa_to_dict`) and whose `new_version`
is the row's current `version`.  The clock tick models the commit that
closes every successful request. -/
def persist_event (db : DB) (pessoa : Pessoa) (base_version : Int) (changes : JDict) : DB :=
  { db with
    events := db.events ++ [{
      id := db.next_event_id
      pessoa_id := pessoa.id
      base_version := base_version
      new_version := pessoa.version
      changes := changes
      state_after := pessoa_to_dict pessoa
      created_at := db.clock }]
    next_event_id := db.next_event_id + 1
    clock := db.clock + 1 }

/-- All events of one entity, in table (insertion) order. -/
def events_of (db : DB) (pessoa_id : Int) : List PessoaEvent :=
  db.events.filter fun e => e.pessoa_id == pessoa_id

/-- `snapshot_at_version` (app/main.py lines 105-113): the `state_after` of
the event with the requested `new_version`, or a 409 when no such event
exists. -/
def snapshot_at_version (db : DB) (pessoa_id target_version : Int) :
    Except ApiError JDict :=
  match db.events.find? (fun e => e.pessoa_id == pessoa_id && e.new_version == target_version) with
  | none => .error .versionNotFound
  | some ev => .ok ev.state_after

/-- Insertion step of the sort modelling the SQL `ORDER BY new_version ASC`
of `replay_forward`. -/
def insert_by_version (e : PessoaEvent) : List PessoaEvent → List PessoaEvent
  | [] => [e]
  | x :: xs =>
    if e.new_version ≤ x.new_version then e :: x :: xs else x :: insert_by_version e xs

/-- Sort by `new_version` ascending, modelling the query's `ORDER BY`. -/
def sort_by_version : List PessoaEvent → List PessoaEvent
  | [] => []
  | x :: xs => insert_by_version x (sort_by_version xs)

/-- `replay_forward` (app/main.py lines 117-133): no-op when
`to_version <= from_version`, otherwise fold `apply_changes` over the
events with `from_version < new_version <= to_version` in ascending
`new_version` order. -/
def replay_forward (db : DB) (pessoa_id from_version to_version : Int)
    (state : JDict) : JDict :=
  if to_version ≤ from_version then state
  else
    let evs := sort_by_version (db.events.filter fun e =>
      e.pessoa_id == pessoa_id && decide (from_version < e.new_version) &&
        decide (e.new_version ≤ to_version))
    evs.foldl (fun s ev => apply_changes s ev.changes) state

/-- `get_pessoa` (app/main.py lines 183-192). -/
def get_pessoa (db : DB) (pessoa_id : Int) : Except ApiError Pessoa :=
  match find_active_pessoa db pessoa_id with
  | none => .error .notFound
  | some p => .ok p

/-- `create_pessoa` (app/main.py lines 195-224): CPF uniqueness among
non-deleted rows, then insert at version 1 and append the founding event
`base 0 -> new 1`. -/
def create_pessoa (db : DB) (payload : PessoaCreate) : Except ApiError (Pessoa × DB) :=
  match db.pessoas.find? (fun q => q.cpf == payload.cpf && !q.deleted) with
  | some _ => .error .cpfConflict
  | none =>
    let p : Pessoa :=
      { id := db.next_pessoa_id
        nome := payload.nome
        cpf := payload.cpf
        data_nascimento := payload.data_nascimento
        version := 1
        deleted := false
        updated_at := db.clock
        created_at := db.clock }
    let db1 : DB :=
      { db with pessoas := db.pessoas ++ [p], next_pessoa_id := db.next_pessoa_id + 1 }
    let changes : JDict :=
      { nome := some p.nome, cpf := some p.cpf,
        data_nascimento := some p.data_nascimento, deleted := some false }
    .ok (p, persist_event db1 p 0 changes)

/-- The dict of changes the client actually sent (app/main.py lines
241-255): one key per non-`None` payload field. -/
def provided_changes_of (payload : PessoaPatch) : JDict :=
  { nome := payload.nome, cpf := payload.cpf, data_nascimento := payload.data_nascimento }

/-- The CPF-uniqueness revalidation inside the patch handler (app/main.py
lines 244-252), performed only when the payload carries a `cpf`. -/
def cpf_conflict_exists (db : DB) (pessoa_id : Int) (payload : PessoaPatch) : Bool :=
  match payload.cpf with
  | some c => (db.pessoas.find? fun q => q.cpf == c && q.id != pessoa_id && !q.deleted).isSome
  | none => false

/-- `patch_pessoa` (app/main.py lines 227-313): the OCC state machine.
Checks happen in source order: active-row lookup, `client_version <= 0`,
CPF revalidation (raised while `provided_changes` is built), empty-delta
no-op, then the direct / ahead / replay split on the version comparison. -/
def patch_pessoa (db : DB) (pessoa_id : Int) (payload : PessoaPatch) :
    Except ApiError (Pessoa × DB) :=
  match find_active_pessoa db pessoa_id with
  | none => .error .notFound
  | some p =>
    let current_version := p.version
    let client_version := payload.version
    if client_version ≤ 0 then
      .error .invalidVersion
    else if cpf_conflict_exists db pessoa_id payload then
      .error .cpfConflict
    else
      let provided_changes := provided_changes_of payload
      if provided_changes.isEmpty then
        .ok (p, db)
      else if client_version = current_version then
        let p' : Pessoa :=
          { p with
            nome := provided_changes.nome.getD p.nome
            cpf := provided_changes.cpf.getD p.cpf
            data_nascimento := provided_changes.data_nascimento.getD p.data_nascimento
            version := current_version + 1
            updated_at := db.clock }
        .ok (p', persist_event (commit_pessoa db p') p' current_version provided_changes)
      else if current_version < client_version then
        .error .versionAhead
      else
        match snapshot_at_version db pessoa_id client_version with
        | .error e => .error e
        | .ok base_snapshot =>
          let merged := apply_changes base_snapshot provided_changes
          let final_state := replay_forward db pessoa_id client_version current_version merged
          match final_state.nome, final_state.cpf, final_state.data_nascimento with
          | some nome1, some cpf1, some dn1 =>
            let p' : Pessoa :=
              { p with
                nome := nome1
                cpf := cpf1
                data_nascimento := dn1
                version := current_version + 1
                updated_at := db.clock }
            let changes_now : JDict :=
              { nome := some p'.nome, cpf := some p'.cpf,
                data_nascimento := some p'.data_nascimento }
            .ok (p', persist_event (commit_pessoa db p') p' current_version changes_now)
          | _, _, _ => .error .keyError

/-- `delete_pessoa` (app/main.py lines 316-338): soft delete; only a
claimed version strictly below the current one is rejected. -/
def delete_pessoa (db : DB) (pessoa_id : Int) (version : Int) :
    Except ApiError (Pessoa × DB) :=
  match find_active_pessoa db pessoa_id with
  | none => .error .notFound
  | some p =>
    if version < p.version then
      .error .staleDelete
    else
      let p' : Pessoa := { p with deleted := true, version := p.version + 1, updated_at := db.clock }
      .ok (p', persist_event (commit_pessoa db p') p' p.version { deleted := some true })

/-- One mutating request. -/
inductive Op where
  | create (payload : PessoaCreate)
  | patch (pessoa_id : Int) (payload : PessoaPatch)
  | del (pessoa_id : Int) (version : Int)
  deriving Repr, DecidableEq

/-- The database after serving one request: on an error the transaction is
rolled back, leaving the state unchanged. -/
def run_op (db : DB) (op : Op) : DB :=
  match op with
  | .create payload =>
    match create_pessoa db payload with
    | .ok r => r.2
    | .error _ => db
  | .patch pessoa_id payload =>
    match patch_pessoa db pessoa_id payload with
    | .ok r => r.2
    | .error _ => db
  | .del pessoa_id version =>
    match delete_pessoa db pessoa_id version with
    | .ok r => r.2
    | .error _ => db

/-- Database states produced by some sequence of requests from the empty
schema. -/
inductive Reachable : DB → Prop where
  | init : Reachable init_db
  | step (db : DB) (op : Op) : Reachable db → Reachable (run_op db op)

/-- A concrete snapshot used by the C9 witness. -/
def sample_state : JDict :=
  { id := some 1, nome := some "A", cpf := some "111", data_nascimento := some "2000-01-01", version := some 1, deleted := some false, updated_at := some 0 }

/-- A concrete delta with `cpf` absent, used by the C9 witness. -/
def sample_delta : JDict := { nome := some "X" }

/- ------------------------------------------------------------------
The event-log invariant: per entity, the log holds exactly the versions
1..current, each event is well-formed, consecutive events chain by
`apply_changes`, and the row caches the last `state_after`.
------------------------------------------------------------------ -/
/-- The integer list `[a+1, a+2, ..., a+m]`. -/
def versions_from (a : Int) (m : Nat) : List Int :=
  (List.range m).map fun k => a + 1 + Int.ofNat k

/-- The integer list `[1, 2, ..., n]`. -/
def versions_list (n : Int) : List Int := versions_from 0 n.toNat

/-- Well-formedness of a single log entry of entity `i`: the version
arithmetic of its transition, no bookkeeping keys in the delta, and a full
snapshot in `state_after`. -/
def event_wf (i : Int) (e : PessoaEvent) : Prop :=
  e.base_version = e.new_version - 1 ∧
  e.changes.id = none ∧ e.changes.version = none ∧ e.changes.updated_at = none ∧
  e.state_after.id = some i ∧ e.state_after.version = some e.new_version ∧
  e.state_after.nome.isSome = true ∧ e.state_after.cpf.isSome = true ∧
  e.state_after.data_nascimento.isSome = true ∧ e.state_after.deleted.isSome = true

/-- Two consecutive log entries chain: applying the later delta to the
earlier snapshot reproduces the later snapshot on the content keys. -/
def chain_step (a b : PessoaEvent) : Prop :=
  content_eq (apply_changes a.state_after b.changes) b.state_after

/-- Per-entity log invariant: versions are exactly `1..version` in order,
entries are well-formed and chain, and the row caches the last snapshot. -/
def entity_inv (db : DB) (p : Pessoa) : Prop :=
  1 ≤ p.version ∧
  (events_of db p.id).map (fun e => e.new_version) = versions_list p.version ∧
  (∀ e ∈ events_of db p.id, event_wf p.id e) ∧
  (events_of db p.id).Chain' chain_step ∧
  ∃ elast, (events_of db p.id).getLast? = some elast ∧
    elast.state_after = pessoa_to_dict p

/-- Global invariant of reachable database states. -/
def DBInv (db : DB) : Prop :=
  db.pessoas.Pairwise (fun a b => a.id ≠ b.id) ∧
  (∀ p ∈ db.pessoas, p.id < db.next_pessoa_id) ∧
  (∀ e ∈ db.events, ∃ p ∈ db.pessoas, p.id = e.pessoa_id) ∧
  ∀ p ∈ db.pessoas, entity_inv db p

/- ------------------------------------------------------------------
Concrete scenario: create (v1, nome "A"), direct patch (v2, nome "B"),
then a stale client claiming v1 patches cpf "123" (replay path, v3).
------------------------------------------------------------------ -/
def pay_a : PessoaCreate := { nome := "A", cpf := "111", data_nascimento := "2000-01-01" }

def db_a : DB := run_op init_db (.create pay_a)

def p_a : Pessoa :=
  { id := 1, nome := "A", cpf := "111", data_nascimento := "2000-01-01", version := 1, deleted := false, updated_at := 0, created_at := 0 }

def pay_b : PessoaPatch := { version := 1, nome := some "B" }

def db_b : DB := run_op db_a (.patch 1 pay_b)

def p_b : Pessoa :=
  { id := 1, nome := "B", cpf := "111", data_nascimento := "2000-01-01", version := 2, deleted := false, updated_at := 1, created_at := 0 }

def pay_c : PessoaPatch := { version := 1, cpf := some "123" }

def db_c : DB := run_op db_b (.patch 1 pay_c)

def p_c : Pessoa :=
  { id := 1, nome := "B", cpf := "123", data_nascimento := "2000-01-01", version := 3, deleted := false, updated_at := 2, created_at := 0 }

/-- The third event of `db_c`: the one appended by the replay-path patch. -/
def ev3 : PessoaEvent :=
  { id := 3, pessoa_id := 1, base_version := 2, new_version := 3, changes := { nome := some "B", cpf := some "123", data_nascimento := some "2000-01-01" }, state_after := { id := some 1, nome := some "B", cpf := some "123", data_nascimento := some "2000-01-01", version := some 3, deleted := some false, updated_at := some 2 }, created_at := 2 }

/-- `db_a` after a soft delete, used to probe invisibility of deleted rows. -/
def db_del : DB := run_op db_a (.del 1 1)

/-- Entity advanced to version 3 by two direct patches, for the C7 witness. -/
def db_v3 : DB := run_op db_b (.patch 1 { version := 2, nome := some "C" })

def p_v3 : Pessoa :=
  { id := 1, nome := "C", cpf := "111", data_nascimento := "2000-01-01", version := 3, deleted := false, updated_at := 2, created_at := 0 }

def pay_c7 : PessoaPatch := { version := 3, nome := some "B" }

/-- The state recorded by the founding event of the scenario entity. -/
def s1 : JDict :=
  { id := some 1, nome := some "A", cpf := some "111", data_nascimento := some "2000-01-01", version := some 1, deleted := some false, updated_at := some 0 }

def p_a_del5 : Pessoa :=
  { id := 1, nome := "A", cpf := "111", data_nascimento := "2000-01-01", version := 2, deleted := true, updated_at := 1, created_at := 0 }

def db_a_del5 : DB := run_op db_a (.del 1 5)

@[simp] theorem overwrite_some {α : Type} (v : α) (b : Option α) :
    overwrite (some v) b = some v := rfl

@[simp] theorem overwrite_none {α : Type} (b : Option α) :
    overwrite none b = b := rfl

/- ------------------------------------------------------------------
Basic lemmas about the merge primitive and the lookups.
------------------------------------------------------------------ -/
theorem overwrite_overwrite {α : Type} (c b : Option α) :
    overwrite c (overwrite c b) = overwrite c b := by
  cases c <;> rfl

theorem content_eq_refl (d : JDict) : content_eq d d :=
  ⟨rfl, rfl, rfl, rfl, rfl⟩

theorem content_eq_trans {d₁ d₂ d₃ : JDict} (h₁ : content_eq d₁ d₂)
    (h₂ : content_eq d₂ d₃) : content_eq d₁ d₃ := by
  obtain ⟨a₁, b₁, c₁, e₁, f₁⟩ := h₁
  obtain ⟨a₂, b₂, c₂, e₂, f₂⟩ := h₂
  exact ⟨a₁.trans a₂, b₁.trans b₂, c₁.trans c₂, e₁.trans e₂, f₁.trans f₂⟩

theorem content_eq_apply_congr {d₁ d₂ : JDict} (c : JDict)
    (h : content_eq d₁ d₂) :
    content_eq (apply_changes d₁ c) (apply_changes d₂ c) := by
  obtain ⟨h₁, h₂, h₃, h₄, h₅⟩ := h
  exact ⟨by simp [apply_changes, h₁], by simp [apply_changes, h₂],
    by simp [apply_changes, h₃], by simp [apply_changes, h₄],
    by simp [apply_changes, h₅]⟩

theorem apply_changes_version_none {s c : JDict} (h : c.version = none) :
    (apply_changes s c).version = s.version := by
  simp [apply_changes, h]

theorem find_active_mem {db : DB} {i : Int} {p : Pessoa}
    (h : find_active_pessoa db i = some p) :
    p ∈ db.pessoas ∧ p.id = i ∧ p.deleted = false := by
  unfold find_active_pessoa at h
  refine ⟨List.mem_of_find?_eq_some h, ?_⟩
  have h2 := List.find?_some h
  simp only [Bool.and_eq_true, beq_iff_eq, Bool.not_eq_true'] at h2
  exact h2

/- ------------------------------------------------------------------
C9: the merge primitive is idempotent and leaves absent keys alone.
------------------------------------------------------------------ -/
/-- C9: for every state `s` and changes mapping `c`, applying `c` a second
time is a no-op (`apply_changes` is idempotent in its changes argument),
and every key absent from `c` is untouched by an application. -/
theorem apply_changes_idem_and_frame (s c : JDict) :
    apply_changes (apply_changes s c) c = apply_changes s c ∧
    (c.id = none → (apply_changes s c).id = s.id) ∧
    (c.nome = none → (apply_changes s c).nome = s.nome) ∧
    (c.cpf = none → (apply_changes s c).cpf = s.cpf) ∧
    (c.data_nascimento = none → (apply_changes s c).data_nascimento = s.data_nascimento) ∧
    (c.version = none → (apply_changes s c).version = s.version) ∧
    (c.deleted = none → (apply_changes s c).deleted = s.deleted) ∧
    (c.updated_at = none → (apply_changes s c).updated_at = s.updated_at) := by
  refine ⟨?_, ?_, ?_, ?_, ?_, ?_, ?_, ?_⟩
  · show JDict.mk _ _ _ _ _ _ _ = JDict.mk _ _ _ _ _ _ _
    simp only [apply_changes, overwrite_overwrite]
  all_goals intro h
  all_goals simp [apply_changes, h]

/-- C9 witness: a concrete state and delta, with `cpf` absent from the
delta and therefore untouched. -/
theorem apply_changes_idem_and_frame_witness :
    (apply_changes (apply_changes sample_state sample_delta) sample_delta =
      apply_changes sample_state sample_delta) ∧
    (apply_changes sample_state sample_delta).cpf = sample_state.cpf := by
  refine ⟨(apply_changes_idem_and_frame sample_state sample_delta).1, ?_⟩
  exact (apply_changes_idem_and_frame sample_state sample_delta).2.2.2.1 rfl

/- ------------------------------------------------------------------
C8: claimed version <= 0 always fails InvalidVersion, before any other
payload processing, and leaves the database unchanged.
------------------------------------------------------------------ -/
/-- C8: a patch on an existing non-deleted row with a claimed version
`<= 0` fails with `InvalidVersion` no matter what fields the payload
carries, and the rolled-back transaction leaves the database unchanged. -/
theorem patch_invalid_version (db : DB) (i : Int) (payload : PessoaPatch)
    (p : Pessoa) (hfind : find_active_pessoa db i = some p)
    (hv : payload.version ≤ 0) :
    patch_pessoa db i payload = .error .invalidVersion ∧
      run_op db (.patch i payload) = db := by
  have h1 : patch_pessoa db i payload = .error .invalidVersion := by
    unfold patch_pessoa
    rw [hfind]
    simp [hv]
  exact ⟨h1, by simp [run_op, h1]⟩

/- ------------------------------------------------------------------
C10: soft-deleted rows are invisible to patch and delete.
------------------------------------------------------------------ -/
/-- C10: when every row carrying this id is soft-deleted, both
`patch_pessoa` and `delete_pessoa` fail with `NotFound` no matter the
claimed version or payload, and the database (hence the event log) is
unchanged. -/
theorem deleted_rows_invisible (db : DB) (i v : Int) (payload : PessoaPatch)
    (hall : ∀ q ∈ db.pessoas, q.id = i → q.deleted = true) :
    patch_pessoa db i payload = .error .notFound ∧
    delete_pessoa db i v = .error .notFound ∧
    run_op db (.patch i payload) = db ∧
    run_op db (.del i v) = db := by
  have hnone : find_active_pessoa db i = none := by
    unfold find_active_pessoa
    rw [List.find?_eq_none]
    intro q hq
    by_cases h : q.id = i
    · simp [h, hall q hq h]
    · simp [h]
  have h1 : patch_pessoa db i payload = .error .notFound := by
    unfold patch_pessoa; rw [hnone]
  have h2 : delete_pessoa db i v = .error .notFound := by
    unfold delete_pessoa; rw [hnone]
  exact ⟨h1, h2, by simp [run_op, h1], by simp [run_op, h2]⟩

/- ------------------------------------------------------------------
C7: the direct path.
------------------------------------------------------------------ -/
/-- C7: a patch whose claimed version equals the current one and which
carries at least one field (and no CPF collision) succeeds on the direct
path: version is incremented by one, the provided fields take the provided
values, and exactly one event is appended with `base_version` the old
version, `new_version` the new one, and `changes` exactly the provided
delta. -/
theorem patch_direct_path (db : DB) (i : Int) (payload : PessoaPatch)
    (p : Pessoa) (hfind : find_active_pessoa db i = some p)
    (hpos : 0 < payload.version) (hveq : payload.version = p.version)
    (hne : (provided_changes_of payload).isEmpty = false)
    (hcpf : cpf_conflict_exists db i payload = false) :
    ∃ p' db', patch_pessoa db i payload = .ok (p', db') ∧
      p'.version = p.version + 1 ∧
      p'.nome = payload.nome.getD p.nome ∧
      p'.cpf = payload.cpf.getD p.cpf ∧
      p'.data_nascimento = payload.data_nascimento.getD p.data_nascimento ∧
      p'.deleted = p.deleted ∧
      ∃ e, db'.events = db.events ++ [e] ∧
        e.base_version = p.version ∧ e.new_version = p.version + 1 ∧
        e.changes = provided_changes_of payload := by
  have key : patch_pessoa db i payload =
      .ok ({ p with
              nome := payload.nome.getD p.nome
              cpf := payload.cpf.getD p.cpf
              data_nascimento := payload.data_nascimento.getD p.data_nascimento
              version := p.version + 1
              updated_at := db.clock },
        persist_event
          (commit_pessoa db
            { p with
              nome := payload.nome.getD p.nome
              cpf := payload.cpf.getD p.cpf
              data_nascimento := payload.data_nascimento.getD p.data_nascimento
              version := p.version + 1
              updated_at := db.clock })
          { p with
            nome := payload.nome.getD p.nome
            cpf := payload.cpf.getD p.cpf
            data_nascimento := payload.data_nascimento.getD p.data_nascimento
            version := p.version + 1
            updated_at := db.clock }
          p.version (provided_changes_of payload)) := by
    simp only [patch_pessoa, hfind]
    rw [if_neg (show ¬ payload.version ≤ 0 by omega)]
    rw [if_neg (show ¬ cpf_conflict_exists db i payload = true by simp [hcpf])]
    rw [if_neg (show ¬ (provided_changes_of payload).isEmpty = true by simp [hne])]
    rw [if_pos hveq]
    rfl
  refine ⟨_, _, key, rfl, rfl, rfl, rfl, rfl, ?_⟩
  exact ⟨_, rfl, rfl, rfl, rfl⟩

/- ------------------------------------------------------------------
C3 (amended): claimed version ahead of the server.
------------------------------------------------------------------ -/
/-- C3 (amended): a patch on an existing non-deleted row whose claimed
version exceeds the current one fails with `VersionAhead` when the payload
carries at least one field; when the payload carries no field at all the
handler instead returns early with the unchanged row and database (the
empty-delta no-op fires before the version comparison). -/
theorem patch_ahead_behavior (db : DB) (i : Int) (payload : PessoaPatch)
    (p : Pessoa) (hfind : find_active_pessoa db i = some p)
    (hpos : 0 < payload.version) (hgt : p.version < payload.version)
    (hcpf : cpf_conflict_exists db i payload = false) :
    ((provided_changes_of payload).isEmpty = true →
      patch_pessoa db i payload = .ok (p, db)) ∧
    ((provided_changes_of payload).isEmpty = false →
      patch_pessoa db i payload = .error .versionAhead) := by
  constructor <;> intro hemp <;>
    simp [patch_pessoa, hfind, hcpf, hemp, hgt,
      show ¬ payload.version ≤ 0 by omega,
      show ¬ payload.version = p.version by omega]

/- ------------------------------------------------------------------
C4 (amended): delete only rejects versions strictly below the current.
------------------------------------------------------------------ -/
/-- C4 (amended): `delete_pessoa` rejects a claimed version strictly below
the current one with `Stale`, leaving the database unchanged; any claimed
version `>= current` — including versions strictly ahead of the server —
succeeds, setting `deleted := true`, incrementing the version by one and
appending one `deleted` event. -/
theorem delete_version_check (db : DB) (i v : Int) (p : Pessoa)
    (hfind : find_active_pessoa db i = some p) :
    (v < p.version → delete_pessoa db i v = .error .staleDelete ∧
      run_op db (.del i v) = db) ∧
    (p.version ≤ v → ∃ p' db', delete_pessoa db i v = .ok (p', db') ∧
      p'.deleted = true ∧ p'.version = p.version + 1 ∧ p'.id = p.id ∧
      ∃ e, db'.events = db.events ++ [e] ∧ e.base_version = p.version ∧
        e.new_version = p.version + 1 ∧
        e.changes = ({ deleted := some true } : JDict)) := by
  constructor
  · intro hlt
    have h1 : delete_pessoa db i v = .error .staleDelete := by
      unfold delete_pessoa; rw [hfind]; simp [hlt]
    exact ⟨h1, by simp [run_op, h1]⟩
  · intro hge
    have key : delete_pessoa db i v =
        .ok ({ p with deleted := true, version := p.version + 1, updated_at := db.clock },
          persist_event
            (commit_pessoa db
              { p with deleted := true, version := p.version + 1, updated_at := db.clock })
            { p with deleted := true, version := p.version + 1, updated_at := db.clock }
            p.version { deleted := some true }) := by
      simp [delete_pessoa, hfind, show ¬ v < p.version by omega]
    refine ⟨_, _, key, rfl, rfl, rfl, ?_⟩
    exact ⟨_, rfl, rfl, rfl, rfl⟩

/- ------------------------------------------------------------------
C1 (amended) and C2: the replay path.
------------------------------------------------------------------ -/
/-- C1 (amended): a successful replay-path patch appends one event with
`base_version` the current version, but its `changes` mapping always
contains exactly the three content fields `nome`, `cpf` and
`data_nascimento`, carrying the final reconciled values — the recorded
delta is the outcome of reconciliation, not the client's provided
change-set, and can mention fields the client never touched. -/
theorem patch_replay_event_delta (db : DB) (i : Int) (payload : PessoaPatch)
    (p p' : Pessoa) (db' : DB)
    (hfind : find_active_pessoa db i = some p)
    (hlt : payload.version < p.version)
    (hne : (provided_changes_of payload).isEmpty = false)
    (hok : patch_pessoa db i payload = .ok (p', db')) :
    p'.version = p.version + 1 ∧
    ∃ e, db'.events = db.events ++ [e] ∧
      e.base_version = p.version ∧ e.new_version = p.version + 1 ∧
      e.changes = ({ nome := some p'.nome, cpf := some p'.cpf, data_nascimento := some p'.data_nascimento } : JDict) := by
  simp only [patch_pessoa, hfind] at hok
  by_cases h0 : payload.version ≤ 0
  · rw [if_pos h0] at hok; exact absurd hok (by simp)
  · rw [if_neg h0] at hok
    by_cases hc : cpf_conflict_exists db i payload = true
    · rw [if_pos hc] at hok; exact absurd hok (by simp)
    · rw [if_neg hc] at hok
      rw [if_neg (show ¬ (provided_changes_of payload).isEmpty = true by simp [hne])] at hok
      rw [if_neg (show ¬ payload.version = p.version by omega)] at hok
      rw [if_neg (show ¬ p.version < payload.version by omega)] at hok
      split at hok
      · exact absurd hok (by simp)
      · split at hok
        · simp only [Except.ok.injEq, Prod.mk.injEq] at hok
          obtain ⟨hp', hdb'⟩ := hok
          subst hp'
          subst hdb'
          exact ⟨rfl, _, rfl, rfl, rfl, rfl⟩
        · exact absurd hok (by simp)

/-- C2: a successful replay-path patch commits, at version
`currentVersion + 1`, exactly the state obtained by taking the snapshot at
the client's version, layering the client's provided changes onto it, and
replaying every later committed event on top (so a later event's write to
a field wins over the stale client's edit, while the client's edits to
untouched fields survive). -/
theorem patch_replay_final_state (db : DB) (i : Int) (payload : PessoaPatch)
    (p p' : Pessoa) (db' : DB)
    (hfind : find_active_pessoa db i = some p)
    (hlt : payload.version < p.version)
    (hne : (provided_changes_of payload).isEmpty = false)
    (hok : patch_pessoa db i payload = .ok (p', db')) :
    p'.version = p.version + 1 ∧
    ∃ base, snapshot_at_version db i payload.version = .ok base ∧
      (replay_forward db i payload.version p.version
          (apply_changes base (provided_changes_of payload))).nome = some p'.nome ∧
      (replay_forward db i payload.version p.version
          (apply_changes base (provided_changes_of payload))).cpf = some p'.cpf ∧
      (replay_forward db i payload.version p.version
          (apply_changes base (provided_changes_of payload))).data_nascimento =
        some p'.data_nascimento := by
  simp only [patch_pessoa, hfind] at hok
  by_cases h0 : payload.version ≤ 0
  · rw [if_pos h0] at hok; exact absurd hok (by simp)
  · rw [if_neg h0] at hok
    by_cases hc : cpf_conflict_exists db i payload = true
    · rw [if_pos hc] at hok; exact absurd hok (by simp)
    · rw [if_neg hc] at hok
      rw [if_neg (show ¬ (provided_changes_of payload).isEmpty = true by simp [hne])] at hok
      rw [if_neg (show ¬ payload.version = p.version by omega)] at hok
      rw [if_neg (show ¬ p.version < payload.version by omega)] at hok
      split at hok
      · exact absurd hok (by simp)
      · rename_i base hsnap
        split at hok
        · rename_i nome1 cpf1 dn1 hnome hcpf1 hdn
          simp only [Except.ok.injEq, Prod.mk.injEq] at hok
          obtain ⟨hp', hdb'⟩ := hok
          subst hp'
          subst hdb'
          exact ⟨rfl, base, hsnap, hnome, hcpf1, hdn⟩
        · exact absurd hok (by simp)

theorem versions_from_succ_snoc (a : Int) (m : Nat) :
    versions_from a (m + 1) = versions_from a m ++ [a + 1 + Int.ofNat m] := by
  unfold versions_from
  rw [List.range_succ, List.map_append]
  rfl

theorem versions_from_succ_cons (a : Int) (m : Nat) :
    versions_from a (m + 1) = (a + 1) :: versions_from (a + 1) m := by
  unfold versions_from
  rw [List.range_succ_eq_map, List.map_cons, List.map_map]
  congr 1
  · simp
  · apply List.map_congr_left
    intro x _
    simp only [Function.comp_apply, Int.ofNat_eq_natCast, Nat.succ_eq_add_one]
    push_cast
    omega

theorem versions_list_succ {n : Int} (h : 0 ≤ n) :
    versions_list (n + 1) = versions_list n ++ [n + 1] := by
  unfold versions_list
  have h1 : (n + 1).toNat = n.toNat + 1 := by omega
  rw [h1, versions_from_succ_snoc]
  congr 2
  simp only [Int.ofNat_eq_natCast]
  omega

theorem versions_list_one : versions_list 1 = [1] := by decide

theorem mem_versions_from {a : Int} {m : Nat} {x : Int} :
    x ∈ versions_from a m ↔ a < x ∧ x ≤ a + Int.ofNat m := by
  unfold versions_from
  simp only [List.mem_map, List.mem_range, Int.ofNat_eq_natCast]
  constructor
  · rintro ⟨k, hk, rfl⟩
    omega
  · intro hx
    refine ⟨(x - a - 1).toNat, by omega, by omega⟩

theorem versions_from_pairwise (a : Int) (m : Nat) :
    (versions_from a m).Pairwise (· ≤ ·) := by
  unfold versions_from
  rw [List.pairwise_map]
  refine (List.pairwise_lt_range m).imp ?_
  intro x y h
  simp only [Int.ofNat_eq_natCast]
  omega

theorem events_of_persist_self (db : DB) (q : Pessoa) (b : Int) (c : JDict) :
    events_of (persist_event db q b c) q.id =
      events_of db q.id ++ [{ id := db.next_event_id, pessoa_id := q.id, base_version := b, new_version := q.version, changes := c, state_after := pessoa_to_dict q, created_at := db.clock }] := by
  unfold events_of persist_event
  rw [List.filter_append]
  simp

theorem events_of_persist_other (db : DB) (q : Pessoa) (b : Int) (c : JDict)
    (i : Int) (h : q.id ≠ i) :
    events_of (persist_event db q b c) i = events_of db i := by
  unfold events_of persist_event
  rw [List.filter_append]
  simp [h]

theorem events_of_commit (db : DB) (p' : Pessoa) (i : Int) :
    events_of (commit_pessoa db p') i = events_of db i := rfl

theorem mem_same_id {db : DB}
    (hpw : db.pessoas.Pairwise fun a b => a.id ≠ b.id)
    {a b : Pessoa} (ha : a ∈ db.pessoas) (hb : b ∈ db.pessoas)
    (h : a.id = b.id) : a = b := by
  by_contra hne
  exact absurd h ((hpw.forall fun x y hxy => Ne.symm hxy) ha hb hne)

theorem commit_events (db : DB) (p' : Pessoa) : (commit_pessoa db p').events = db.events := rfl

theorem inv_commit_persist (db : DB) (p p' : Pessoa) (changes : JDict)
    (hInv : DBInv db) (hmem : p ∈ db.pessoas)
    (hid : p'.id = p.id) (hver : p'.version = p.version + 1)
    (hcid : changes.id = none) (hcver : changes.version = none)
    (hcup : changes.updated_at = none)
    (hchain : content_eq (apply_changes (pessoa_to_dict p) changes) (pessoa_to_dict p')) :
    DBInv (persist_event (commit_pessoa db p') p' p.version changes) := by
  obtain ⟨hpw, hbound, hbelong, hent⟩ := hInv
  have hidf : ∀ q : Pessoa, ((fun q => if q.id == p'.id then p' else q) q).id = q.id := by
    intro q
    by_cases h : q.id = p'.id
    · simp [h]
    · simp [h]
  have hpess : (persist_event (commit_pessoa db p') p' p.version changes).pessoas =
      db.pessoas.map fun q => if q.id == p'.id then p' else q := rfl
  have hfp : (fun q : Pessoa => if q.id == p'.id then p' else q) p = p' := by
    simp [hid]
  refine ⟨?_, ?_, ?_, ?_⟩
  · rw [hpess, List.pairwise_map]
    refine hpw.imp ?_
    intro a b h
    rw [hidf a, hidf b]
    exact h
  · intro q' hq'
    rw [hpess] at hq'
    obtain ⟨q, hq, rfl⟩ := List.mem_map.1 hq'
    have hnext : (persist_event (commit_pessoa db p') p' p.version changes).next_pessoa_id =
        db.next_pessoa_id := rfl
    rw [hnext, hidf q]
    exact hbound q hq
  · intro e he
    rcases List.mem_append.1 he with h | h
    · obtain ⟨q, hq, hqid⟩ := hbelong e h
      refine ⟨(fun q => if q.id == p'.id then p' else q) q, ?_, ?_⟩
      · rw [hpess]
        exact List.mem_map_of_mem _ hq
      · rw [hidf q]
        exact hqid
    · rw [List.mem_singleton] at h
      subst h
      refine ⟨p', ?_, rfl⟩
      rw [hpess]
      have hm := List.mem_map_of_mem (fun q : Pessoa => if q.id == p'.id then p' else q) hmem
      rwa [hfp] at hm
  · intro q' hq'
    rw [hpess] at hq'
    obtain ⟨q, hq, rfl⟩ := List.mem_map.1 hq'
    by_cases hqi : q.id = p.id
    · have hqp : q = p := mem_same_id hpw hq hmem hqi
      subst hqp
      have hfp2 : (if (q.id == p'.id) = true then p' else q) = p' := by simp [hid]
      rw [hfp2]
      obtain ⟨hv1, hmap, hwf, hch, elast, hlastq, hlasts⟩ := hent q hq
      have hevents : events_of (persist_event (commit_pessoa db p') p' q.version changes) p'.id =
          events_of db q.id ++ [{ id := db.next_event_id, pessoa_id := p'.id, base_version := q.version, new_version := p'.version, changes := changes, state_after := pessoa_to_dict p', created_at := db.clock }] := by
        rw [events_of_persist_self]
        rw [events_of_commit, hid]
        rfl
      refine ⟨by omega, ?_, ?_, ?_, ?_⟩
      · rw [hevents, List.map_append, hmap]
        simp only [List.map_cons, List.map_nil]
        rw [hver, versions_list_succ (show (0:Int) ≤ q.version by omega)]
      · intro e he
        rw [hevents] at he
        rcases List.mem_append.1 he with h | h
        · rw [hid]
          exact hwf e h
        · rw [List.mem_singleton] at h
          subst h
          exact ⟨show q.version = p'.version - 1 by omega, hcid, hcver, hcup, rfl, rfl, rfl, rfl, rfl, rfl⟩
      · rw [hevents]
        refine List.chain'_append.2 ⟨hch, List.chain'_singleton _, ?_⟩
        intro x hx y hy
        rw [hlastq, Option.mem_def] at hx
        injection hx with hx
        rw [List.head?_cons, Option.mem_def] at hy
        injection hy with hy
        subst hx
        subst hy
        show content_eq (apply_changes elast.state_after changes) (pessoa_to_dict p')
        rw [hlasts]
        exact hchain
      · refine ⟨{ id := db.next_event_id, pessoa_id := p'.id, base_version := q.version, new_version := p'.version, changes := changes, state_after := pessoa_to_dict p', created_at := db.clock }, ?_, rfl⟩
        rw [hevents]
        exact List.getLast?_concat _
    · have hfq : (if (q.id == p'.id) = true then p' else q) = q := by
        simp [hid, hqi]
      rw [hfq]
      have hev : events_of (persist_event (commit_pessoa db p') p' p.version changes) q.id =
          events_of db q.id := by
        rw [events_of_persist_other _ _ _ _ _ (show p'.id ≠ q.id by rw [hid]; exact fun h => hqi h.symm)]
        rw [events_of_commit]
      have h1 := hent q hq
      unfold entity_inv at h1 ⊢
      rw [hev]
      exact h1

theorem overwrite_getD {α : Type} (c : Option α) (b : α) :
    overwrite c (some b) = some (c.getD b) := by
  cases c <;> rfl

theorem inv_insert_new (db : DB) (pnew : Pessoa) (c : JDict)
    (hInv : DBInv db)
    (hnid : pnew.id = db.next_pessoa_id) (hver : pnew.version = 1)
    (hcid : c.id = none) (hcver : c.version = none) (hcup : c.updated_at = none) :
    DBInv (persist_event { db with pessoas := db.pessoas ++ [pnew], next_pessoa_id := db.next_pessoa_id + 1 } pnew 0 c) := by
  obtain ⟨hpw, hbound, hbelong, hent⟩ := hInv
  have hfresh : ∀ q ∈ db.pessoas, q.id ≠ pnew.id := by
    intro q hq
    have := hbound q hq
    omega
  have hnoev : events_of db pnew.id = [] := by
    unfold events_of
    rw [List.filter_eq_nil_iff]
    intro e he
    obtain ⟨q, hq, hqid⟩ := hbelong e he
    have := hbound q hq
    simp only [beq_iff_eq]
    omega
  refine ⟨?_, ?_, ?_, ?_⟩
  · show (db.pessoas ++ [pnew]).Pairwise fun a b => a.id ≠ b.id
    rw [List.pairwise_append]
    refine ⟨hpw, by simp, ?_⟩
    intro a ha b hb
    rw [List.mem_singleton] at hb
    subst hb
    exact hfresh a ha
  · intro q hq
    rcases List.mem_append.1 hq with h | h
    · have := hbound q h
      show q.id < db.next_pessoa_id + 1
      omega
    · rw [List.mem_singleton] at h
      subst h
      show q.id < db.next_pessoa_id + 1
      omega
  · intro e he
    rcases List.mem_append.1 he with h | h
    · obtain ⟨q, hq, hqid⟩ := hbelong e h
      exact ⟨q, List.mem_append_left _ hq, hqid⟩
    · rw [List.mem_singleton] at h
      subst h
      exact ⟨pnew, List.mem_append_right _ (by simp), rfl⟩
  · intro q hq
    rcases List.mem_append.1 hq with h | h
    · have hne : pnew.id ≠ q.id := fun hx => hfresh q h hx.symm
      have hev : events_of (persist_event { db with pessoas := db.pessoas ++ [pnew], next_pessoa_id := db.next_pessoa_id + 1 } pnew 0 c) q.id = events_of db q.id := by
        rw [events_of_persist_other _ _ _ _ _ hne]
        rfl
      have h1 := hent q h
      unfold entity_inv at h1 ⊢
      rw [hev]
      exact h1
    · rw [List.mem_singleton] at h
      subst h
      have hev : events_of (persist_event { db with pessoas := db.pessoas ++ [q], next_pessoa_id := db.next_pessoa_id + 1 } q 0 c) q.id = [{ id := db.next_event_id, pessoa_id := q.id, base_version := 0, new_version := q.version, changes := c, state_after := pessoa_to_dict q, created_at := db.clock }] := by
        rw [events_of_persist_self]
        show events_of db q.id ++ _ = _
        rw [hnoev]
        rfl
      refine ⟨by omega, ?_, ?_, ?_, ?_⟩
      · rw [hev]
        simp only [List.map_cons, List.map_nil]
        rw [hver, versions_list_one]
      · intro e he
        rw [hev, List.mem_singleton] at he
        subst he
        exact ⟨show (0:Int) = q.version - 1 by omega, hcid, hcver, hcup, rfl, rfl, rfl, rfl, rfl, rfl⟩
      · rw [hev]
        exact List.chain'_singleton _
      · refine ⟨{ id := db.next_event_id, pessoa_id := q.id, base_version := 0, new_version := q.version, changes := c, state_after := pessoa_to_dict q, created_at := db.clock }, ?_, rfl⟩
        rw [hev]
        rfl

theorem inv_create (db : DB) (payload : PessoaCreate) (hInv : DBInv db) :
    DBInv (run_op db (.create payload)) := by
  simp only [run_op]
  cases hc : create_pessoa db payload with
  | error e => exact hInv
  | ok r =>
    rcases r with ⟨rp, rdb⟩
    show DBInv rdb
    simp only [create_pessoa] at hc
    split at hc
    · exact absurd hc (by simp)
    · simp only [Except.ok.injEq, Prod.mk.injEq] at hc
      obtain ⟨h1, h2⟩ := hc
      subst h2
      exact inv_insert_new db _ _ hInv rfl rfl rfl rfl rfl

theorem inv_patch (db : DB) (i : Int) (payload : PessoaPatch) (hInv : DBInv db) :
    DBInv (run_op db (.patch i payload)) := by
  simp only [run_op]
  cases hres : patch_pessoa db i payload with
  | error e => exact hInv
  | ok r =>
    rcases r with ⟨rp, rdb⟩
    show DBInv rdb
    cases hfind : find_active_pessoa db i with
    | none => simp only [patch_pessoa, hfind] at hres; exact absurd hres (by simp)
    | some p =>
      obtain ⟨hmem, hpid, hpdel⟩ := find_active_mem hfind
      simp only [patch_pessoa, hfind] at hres
      by_cases h0 : payload.version ≤ 0
      · rw [if_pos h0] at hres; exact absurd hres (by simp)
      rw [if_neg h0] at hres
      by_cases hcpf : cpf_conflict_exists db i payload = true
      · rw [if_pos hcpf] at hres; exact absurd hres (by simp)
      rw [if_neg hcpf] at hres
      by_cases hemp : (provided_changes_of payload).isEmpty = true
      · rw [if_pos hemp] at hres
        simp only [Except.ok.injEq, Prod.mk.injEq] at hres
        obtain ⟨h1, h2⟩ := hres
        subst h2
        exact hInv
      rw [if_neg hemp] at hres
      by_cases heq : payload.version = p.version
      · rw [if_pos heq] at hres
        simp only [Except.ok.injEq, Prod.mk.injEq] at hres
        obtain ⟨h1, h2⟩ := hres
        subst h2
        refine inv_commit_persist db p _ _ hInv hmem rfl rfl rfl rfl rfl ?_
        unfold content_eq
        refine ⟨?_, ?_, ?_, ?_, ?_⟩ <;>
          simp [apply_changes, pessoa_to_dict, provided_changes_of, overwrite_getD]
      · rw [if_neg heq] at hres
        by_cases hlt : p.version < payload.version
        · rw [if_pos hlt] at hres; exact absurd hres (by simp)
        rw [if_neg hlt] at hres
        split at hres
        · exact absurd hres (by simp)
        · split at hres
          · simp only [Except.ok.injEq, Prod.mk.injEq] at hres
            obtain ⟨h1, h2⟩ := hres
            subst h2
            refine inv_commit_persist db p _ _ hInv hmem rfl rfl rfl rfl rfl ?_
            unfold content_eq
            refine ⟨?_, ?_, ?_, ?_, ?_⟩ <;> simp [apply_changes, pessoa_to_dict]
          · exact absurd hres (by simp)

theorem inv_delete (db : DB) (i v : Int) (hInv : DBInv db) :
    DBInv (run_op db (.del i v)) := by
  simp only [run_op]
  cases hres : delete_pessoa db i v with
  | error e => exact hInv
  | ok r =>
    rcases r with ⟨rp, rdb⟩
    show DBInv rdb
    cases hfind : find_active_pessoa db i with
    | none => simp only [delete_pessoa, hfind] at hres; exact absurd hres (by simp)
    | some p =>
      obtain ⟨hmem, hpid, hpdel⟩ := find_active_mem hfind
      simp only [delete_pessoa, hfind] at hres
      by_cases hlt : v < p.version
      · rw [if_pos hlt] at hres; exact absurd hres (by simp)
      rw [if_neg hlt] at hres
      simp only [Except.ok.injEq, Prod.mk.injEq] at hres
      obtain ⟨h1, h2⟩ := hres
      subst h2
      refine inv_commit_persist db p _ _ hInv hmem rfl rfl rfl rfl rfl ?_
      unfold content_eq
      refine ⟨?_, ?_, ?_, ?_, ?_⟩ <;> simp [apply_changes, pessoa_to_dict]

theorem inv_run_op (db : DB) (op : Op) (hInv : DBInv db) : DBInv (run_op db op) := by
  cases op with
  | create payload => exact inv_create db payload hInv
  | patch i payload => exact inv_patch db i payload hInv
  | del i v => exact inv_delete db i v hInv

theorem inv_init : DBInv init_db := by
  refine ⟨List.Pairwise.nil, ?_, ?_, ?_⟩ <;> simp [init_db]

theorem inv_reachable {db : DB} (h : Reachable db) : DBInv db := by
  induction h with
  | init => exact inv_init
  | step db op hdb ih => exact inv_run_op db op ih

theorem versions_from_nodup (a : Int) (m : Nat) : (versions_from a m).Nodup := by
  unfold versions_from
  refine List.Nodup.map ?_ (List.nodup_range m)
  intro x y hxy
  simp only [Int.ofNat_eq_natCast] at hxy
  omega

theorem write_shape (db : DB) (p0 p' : Pessoa) (b : Int) (c : JDict)
    (hpw : db.pessoas.Pairwise fun a b => a.id ≠ b.id)
    (hmem0 : p0 ∈ db.pessoas) (hid' : p'.id = p0.id)
    (p : Pessoa) (hp : p ∈ db.pessoas)
    (q' : Pessoa) (hq' : q' ∈ (persist_event (commit_pessoa db p') p' b c).pessoas)
    (hqid : q'.id = p.id) :
    (p = p0 ∧ q' = p' ∧ events_of (persist_event (commit_pessoa db p') p' b c) p.id = events_of db p.id ++ [{ id := db.next_event_id, pessoa_id := p'.id, base_version := b, new_version := p'.version, changes := c, state_after := pessoa_to_dict p', created_at := db.clock }]) ∨
    (q' = p ∧ events_of (persist_event (commit_pessoa db p') p' b c) p.id = events_of db p.id) := by
  have hq'2 : q' ∈ db.pessoas.map fun q => if q.id == p'.id then p' else q := hq'
  obtain ⟨q, hq, hfq⟩ := List.mem_map.1 hq'2
  by_cases hqi : q.id = p'.id
  · have hq'p : q' = p' := by rw [← hfq]; simp [hqi]
    have hqp0 : q = p0 := mem_same_id hpw hq hmem0 (by rw [hqi, hid'])
    have hpp0 : p = p0 := by
      refine mem_same_id hpw hp hmem0 ?_
      rw [← hqid, hq'p, hid']
    left
    subst hpp0
    refine ⟨rfl, hq'p, ?_⟩
    have hpid : p.id = p'.id := by rw [hid']
    rw [hpid, events_of_persist_self, events_of_commit]
    rfl
  · have hq'q : q' = q := by rw [← hfq]; simp [hqi]
    have hqp : q = p := by
      refine mem_same_id hpw hq hp ?_
      rw [← hq'q, hqid]
    right
    refine ⟨by rw [hq'q, hqp], ?_⟩
    have hne : p'.id ≠ p.id := by
      rw [← hqp]
      exact fun hx => hqi hx.symm
    rw [events_of_persist_other _ _ _ _ _ hne]
    rfl

/-- C6: in every reachable state, each entity's log carries the
`new_version` values `1..currentVersion` exactly — in ascending order,
without duplicates, each event with `base_version = new_version - 1` —
and any single request either leaves an entity's version and log
untouched, or increments the version by exactly one while appending
exactly one event whose `base_version` is the old version and whose
`new_version` is the new one. -/
theorem version_log_contiguity (db : DB) (h : Reachable db) :
    (∀ p ∈ db.pessoas,
      (events_of db p.id).map (fun e => e.new_version) = versions_list p.version ∧
      ((events_of db p.id).map fun e => e.new_version).Nodup ∧
      (∀ v : Int, v ∈ ((events_of db p.id).map fun e => e.new_version) ↔ 1 ≤ v ∧ v ≤ p.version) ∧
      ∀ e ∈ events_of db p.id, e.base_version = e.new_version - 1) ∧
    ∀ op : Op, ∀ p ∈ db.pessoas, ∀ p' ∈ (run_op db op).pessoas, p'.id = p.id →
      (p'.version = p.version ∧ events_of (run_op db op) p.id = events_of db p.id) ∨
      (p'.version = p.version + 1 ∧ ∃ e,
        events_of (run_op db op) p.id = events_of db p.id ++ [e] ∧
        e.new_version = p.version + 1 ∧ e.base_version = p.version) := by
  obtain ⟨hpw, hbound, hbelong, hent⟩ := inv_reachable h
  constructor
  · intro p hp
    obtain ⟨hv1, hmap, hwf, hch, hlast⟩ := hent p hp
    refine ⟨hmap, ?_, ?_, fun e he => (hwf e he).1⟩
    · rw [hmap]
      exact versions_from_nodup 0 p.version.toNat
    · intro v
      rw [hmap]
      unfold versions_list
      rw [mem_versions_from]
      simp only [Int.ofNat_eq_natCast]
      omega
  · intro op p hp p' hp' hqid
    cases op with
    | create payload =>
      simp only [run_op] at hp' ⊢
      cases hc : create_pessoa db payload with
      | error e =>
        rw [hc] at hp'
        have hp'2 : p' ∈ db.pessoas := hp'
        left
        exact ⟨by rw [mem_same_id hpw hp'2 hp hqid], rfl⟩
      | ok r =>
        rcases r with ⟨rp, rdb⟩
        rw [hc] at hp'
        have hp'2 : p' ∈ rdb.pessoas := hp'
        show (p'.version = p.version ∧ events_of rdb p.id = events_of db p.id) ∨
          (p'.version = p.version + 1 ∧ ∃ e, events_of rdb p.id = events_of db p.id ++ [e] ∧ e.new_version = p.version + 1 ∧ e.base_version = p.version)
        simp only [create_pessoa] at hc
        split at hc
        · exact absurd hc (by simp)
        · simp only [Except.ok.injEq, Prod.mk.injEq] at hc
          obtain ⟨hh1, hh2⟩ := hc
          subst hh2
          rcases List.mem_append.1 hp'2 with hA | hA
          · left
            refine ⟨by rw [mem_same_id hpw hA hp hqid], ?_⟩
            have hne : ({ id := db.next_pessoa_id, nome := payload.nome, cpf := payload.cpf, data_nascimento := payload.data_nascimento, version := 1, deleted := false, updated_at := db.clock, created_at := db.clock } : Pessoa).id ≠ p.id := by
              show db.next_pessoa_id ≠ p.id
              have := hbound p hp
              omega
            rw [events_of_persist_other _ _ _ _ _ hne]
            rfl
          · rw [List.mem_singleton] at hA
            exfalso
            rw [hA] at hqid
            have hq2 : db.next_pessoa_id = p.id := hqid
            have := hbound p hp
            omega
    | patch i payload =>
      simp only [run_op] at hp' ⊢
      cases hres : patch_pessoa db i payload with
      | error e =>
        rw [hres] at hp'
        have hp'2 : p' ∈ db.pessoas := hp'
        left
        exact ⟨by rw [mem_same_id hpw hp'2 hp hqid], rfl⟩
      | ok r =>
        rcases r with ⟨rp, rdb⟩
        rw [hres] at hp'
        have hp'2 : p' ∈ rdb.pessoas := hp'
        show (p'.version = p.version ∧ events_of rdb p.id = events_of db p.id) ∨
          (p'.version = p.version + 1 ∧ ∃ e, events_of rdb p.id = events_of db p.id ++ [e] ∧ e.new_version = p.version + 1 ∧ e.base_version = p.version)
        cases hfind : find_active_pessoa db i with
        | none => simp only [patch_pessoa, hfind] at hres; exact absurd hres (by simp)
        | some p0 =>
          obtain ⟨hmem0, hp0id, hp0del⟩ := find_active_mem hfind
          simp only [patch_pessoa, hfind] at hres
          by_cases h0 : payload.version ≤ 0
          · rw [if_pos h0] at hres; exact absurd hres (by simp)
          rw [if_neg h0] at hres
          by_cases hcpf : cpf_conflict_exists db i payload = true
          · rw [if_pos hcpf] at hres; exact absurd hres (by simp)
          rw [if_neg hcpf] at hres
          by_cases hemp : (provided_changes_of payload).isEmpty = true
          · rw [if_pos hemp] at hres
            simp only [Except.ok.injEq, Prod.mk.injEq] at hres
            obtain ⟨hh1, hh2⟩ := hres
            subst hh2
            left
            exact ⟨by rw [mem_same_id hpw hp'2 hp hqid], rfl⟩
          rw [if_neg hemp] at hres
          by_cases heqv : payload.version = p0.version
          · rw [if_pos heqv] at hres
            simp only [Except.ok.injEq, Prod.mk.injEq] at hres
            obtain ⟨hh1, hh2⟩ := hres
            subst hh2
            rcases write_shape db p0 _ p0.version _ hpw hmem0 (by rfl) p hp p' hp'2 hqid with ⟨hpp0, hq'p, hev⟩ | ⟨hq'p, hev⟩
            · right
              subst hpp0
              refine ⟨?_, _, hev, rfl, rfl⟩
              rw [hq'p]
            · left
              exact ⟨by rw [hq'p], hev⟩
          · rw [if_neg heqv] at hres
            by_cases hltv : p0.version < payload.version
            · rw [if_pos hltv] at hres; exact absurd hres (by simp)
            rw [if_neg hltv] at hres
            split at hres
            · exact absurd hres (by simp)
            · split at hres
              · simp only [Except.ok.injEq, Prod.mk.injEq] at hres
                obtain ⟨hh1, hh2⟩ := hres
                subst hh2
                rcases write_shape db p0 _ p0.version _ hpw hmem0 (by rfl) p hp p' hp'2 hqid with ⟨hpp0, hq'p, hev⟩ | ⟨hq'p, hev⟩
                · right
                  subst hpp0
                  refine ⟨?_, _, hev, rfl, rfl⟩
                  rw [hq'p]
                · left
                  exact ⟨by rw [hq'p], hev⟩
              · exact absurd hres (by simp)
    | del j v =>
      simp only [run_op] at hp' ⊢
      cases hres : delete_pessoa db j v with
      | error e =>
        rw [hres] at hp'
        have hp'2 : p' ∈ db.pessoas := hp'
        left
        exact ⟨by rw [mem_same_id hpw hp'2 hp hqid], rfl⟩
      | ok r =>
        rcases r with ⟨rp, rdb⟩
        rw [hres] at hp'
        have hp'2 : p' ∈ rdb.pessoas := hp'
        show (p'.version = p.version ∧ events_of rdb p.id = events_of db p.id) ∨
          (p'.version = p.version + 1 ∧ ∃ e, events_of rdb p.id = events_of db p.id ++ [e] ∧ e.new_version = p.version + 1 ∧ e.base_version = p.version)
        cases hfind : find_active_pessoa db j with
        | none => simp only [delete_pessoa, hfind] at hres; exact absurd hres (by simp)
        | some p0 =>
          obtain ⟨hmem0, hp0id, hp0del⟩ := find_active_mem hfind
          simp only [delete_pessoa, hfind] at hres
          by_cases hlt : v < p0.version
          · rw [if_pos hlt] at hres; exact absurd hres (by simp)
          rw [if_neg hlt] at hres
          simp only [Except.ok.injEq, Prod.mk.injEq] at hres
          obtain ⟨hh1, hh2⟩ := hres
          subst hh2
          rcases write_shape db p0 _ p0.version _ hpw hmem0 (by rfl) p hp p' hp'2 hqid with ⟨hpp0, hq'p, hev⟩ | ⟨hq'p, hev⟩
          · right
            subst hpp0
            refine ⟨?_, _, hev, rfl, rfl⟩
            rw [hq'p]
          · left
            exact ⟨by rw [hq'p], hev⟩

/- ------------------------------------------------------------------
C5: machinery relating the SQL queries of the replay engine to the
per-entity event list, and folding `apply_changes` along the chain.
------------------------------------------------------------------ -/
theorem find?_through_filter (l : List PessoaEvent) (i : Int) (q : PessoaEvent → Bool) :
    (l.find? fun e => e.pessoa_id == i && q e) =
      (l.filter fun e => e.pessoa_id == i).find? q := by
  induction l with
  | nil => rfl
  | cons x xs ih =>
    cases hx : (x.pessoa_id == i) <;> cases hq : q x <;>
      simp [List.find?, List.filter, hx, hq, ih]

theorem filter_through_filter (l : List PessoaEvent) (i : Int) (q : PessoaEvent → Bool) :
    (l.filter fun e => e.pessoa_id == i && q e) =
      (l.filter fun e => e.pessoa_id == i).filter q := by
  induction l with
  | nil => rfl
  | cons x xs ih =>
    cases hx : (x.pessoa_id == i) <;> cases hq : q x <;>
      simp [List.filter, hx, hq, ih]

theorem replay_filter_eq (db : DB) (i v n : Int) :
    (db.events.filter fun e => e.pessoa_id == i && decide (v < e.new_version) && decide (e.new_version ≤ n)) =
      (events_of db i).filter fun e => decide (v < e.new_version) && decide (e.new_version ≤ n) := by
  unfold events_of
  rw [← filter_through_filter]
  apply List.filter_congr
  intro e he
  rw [Bool.and_assoc]

theorem versions_split :
    ∀ (m : Nat) (l : List PessoaEvent) (a v : Int),
      (l.map fun e => e.new_version) = versions_from a m →
      a < v → v ≤ a + Int.ofNat m →
      ∃ pre e post, l = pre ++ e :: post ∧ e.new_version = v ∧
        (∀ x ∈ pre, x.new_version < v) ∧
        (post.map fun e => e.new_version) = versions_from v (a + Int.ofNat m - v).toNat := by
  intro m
  induction m with
  | zero =>
    intro l a v hmap hav hva
    exfalso
    simp only [Int.ofNat_eq_natCast, Nat.cast_zero] at hva
    omega
  | succ m ih =>
    intro l a v hmap hav hva
    cases l with
    | nil =>
      rw [versions_from_succ_cons] at hmap
      exact absurd hmap (by simp)
    | cons e0 l' =>
      rw [versions_from_succ_cons, List.map_cons] at hmap
      simp only [List.cons.injEq] at hmap
      obtain ⟨h01, hmap'⟩ := hmap
      by_cases hv : v = a + 1
      · refine ⟨[], e0, l', by simp, by rw [h01, hv], by simp, ?_⟩
        have hz : (a + Int.ofNat (m + 1) - v).toNat = m := by
          simp only [Int.ofNat_eq_natCast]
          push_cast
          omega
        rw [hz, hmap', hv]
      · have hav' : a + 1 < v := by omega
        have hva' : v ≤ (a + 1) + Int.ofNat m := by
          simp only [Int.ofNat_eq_natCast] at hva ⊢
          push_cast at hva ⊢
          omega
        obtain ⟨pre, e, post, hsplit, hev, hpre, hpost⟩ := ih l' (a + 1) v hmap' hav' hva'
        refine ⟨e0 :: pre, e, post, by rw [hsplit]; rfl, hev, ?_, ?_⟩
        · intro x hx
          rcases List.mem_cons.1 hx with hx0 | hxp
          · subst hx0
            rw [h01]
            omega
          · exact hpre x hxp
        · rw [hpost]
          congr 1
          simp only [Int.ofNat_eq_natCast]
          push_cast
          omega

theorem find?_version_split (pre post : List PessoaEvent) (e : PessoaEvent) (v : Int)
    (hpre : ∀ x ∈ pre, x.new_version < v) (hev : e.new_version = v) :
    ((pre ++ e :: post).find? fun x => x.new_version == v) = some e := by
  induction pre with
  | nil => simp [List.find?, hev]
  | cons a as ih =>
    have ha : ¬ (a.new_version = v) := by
      have := hpre a (by simp)
      omega
    simp only [List.cons_append, List.find?]
    rw [show (a.new_version == v) = false by simp [ha]]
    exact ih fun x hx => hpre x (by simp [hx])

theorem filter_range_split (pre post : List PessoaEvent) (e : PessoaEvent) (v n : Int)
    (hpre : ∀ x ∈ pre, x.new_version < v) (hev : e.new_version = v)
    (hpost : ∀ x ∈ post, v < x.new_version ∧ x.new_version ≤ n) :
    ((pre ++ e :: post).filter fun x => decide (v < x.new_version) && decide (x.new_version ≤ n)) = post := by
  rw [List.filter_append]
  have h1 : (pre.filter fun x => decide (v < x.new_version) && decide (x.new_version ≤ n)) = [] := by
    rw [List.filter_eq_nil_iff]
    intro x hx
    have := hpre x hx
    simp only [Bool.and_eq_true, decide_eq_true_eq, not_and]
    omega
  have h2 : (decide (v < e.new_version) && decide (e.new_version ≤ n)) = false := by
    simp [hev]
  have h3 : (post.filter fun x => decide (v < x.new_version) && decide (x.new_version ≤ n)) = post := by
    rw [List.filter_eq_self]
    intro x hx
    have := hpost x hx
    simp only [Bool.and_eq_true, decide_eq_true_eq]
    exact this
  rw [h1, List.filter_cons, h2]
  simp only [Bool.false_eq_true, if_false, List.nil_append]
  exact h3

theorem sort_by_version_of_sorted (l : List PessoaEvent)
    (h : l.Pairwise fun a b => a.new_version ≤ b.new_version) :
    sort_by_version l = l := by
  induction l with
  | nil => rfl
  | cons x xs ih =>
    rw [List.pairwise_cons] at h
    obtain ⟨hx, hxs⟩ := h
    show insert_by_version x (sort_by_version xs) = x :: xs
    rw [ih hxs]
    cases xs with
    | nil => rfl
    | cons y ys =>
      show (if x.new_version ≤ y.new_version then x :: y :: ys else y :: insert_by_version x ys) = x :: y :: ys
      rw [if_pos (hx y (by simp))]

theorem fold_apply_chain :
    ∀ (l : List PessoaEvent) (e : PessoaEvent) (s : JDict),
      List.Chain' chain_step (e :: l) →
      (∀ x ∈ l, x.changes.version = none) →
      content_eq s e.state_after →
      content_eq (l.foldl (fun acc ev => apply_changes acc ev.changes) s)
          (((e :: l).getLast (List.cons_ne_nil e l)).state_after) ∧
      (l.foldl (fun acc ev => apply_changes acc ev.changes) s).version = s.version := by
  intro l
  induction l with
  | nil =>
    intro e s h1 h2 h3
    exact ⟨h3, rfl⟩
  | cons x xs ih =>
    intro e s h1 h2 h3
    rw [List.chain'_cons] at h1
    obtain ⟨hstep, hchain⟩ := h1
    have h3' : content_eq (apply_changes s x.changes) x.state_after :=
      content_eq_trans (content_eq_apply_congr x.changes h3) hstep
    have hver : (apply_changes s x.changes).version = s.version :=
      apply_changes_version_none (h2 x (by simp))
    have hrec := ih x (apply_changes s x.changes) hchain
      (fun y hy => h2 y (by simp [hy])) h3'
    have hg : (e :: x :: xs).getLast (List.cons_ne_nil e (x :: xs)) =
        (x :: xs).getLast (List.cons_ne_nil x xs) := List.getLast_cons _
    constructor
    · rw [List.foldl_cons, hg]
      exact hrec.1
    · rw [List.foldl_cons, hrec.2, hver]

/-- C5 (amended): in every reachable state and for every version `v` in
`[1, currentVersion]`, `snapshot_at_version` succeeds and replaying
forward to the current version reconstructs the current snapshot on the
content keys (`id`, `nome`, `cpf`, `data_nascimento`, `deleted`) — but the
`version` key of the reconstructed dict keeps the historical value `v`,
because no event's `changes` ever mentions the `version` key, so full dict
equality with the current snapshot fails whenever `v < currentVersion`. -/
theorem snapshot_replay_reconstruction (db : DB) (h : Reachable db)
    (p : Pessoa) (hp : p ∈ db.pessoas) (v : Int) (hv1 : 1 ≤ v) (hv2 : v ≤ p.version) :
    ∃ s, snapshot_at_version db p.id v = .ok s ∧
      content_eq (replay_forward db p.id v p.version s) (pessoa_to_dict p) ∧
      (replay_forward db p.id v p.version s).version = some v := by
  obtain ⟨hpw, hbound, hbelong, hent⟩ := inv_reachable h
  obtain ⟨hpv1, hmap, hwf, hch, elast, hlastq, hlasts⟩ := hent p hp
  have hmn : v ≤ 0 + Int.ofNat p.version.toNat := by
    simp only [Int.ofNat_eq_natCast]
    omega
  obtain ⟨pre, e0, post, hsplit, he0, hpre, hpost⟩ :=
    versions_split p.version.toNat (events_of db p.id) 0 v hmap (by omega) hmn
  have hfind : (db.events.find? fun e => e.pessoa_id == p.id && e.new_version == v) = some e0 := by
    have hft := find?_through_filter db.events p.id fun e => e.new_version == v
    rw [hft]
    show (events_of db p.id).find? (fun e => e.new_version == v) = some e0
    rw [hsplit]
    exact find?_version_split pre post e0 v hpre he0
  have hsnap : snapshot_at_version db p.id v = .ok e0.state_after := by
    unfold snapshot_at_version
    rw [hfind]
  have he0mem : e0 ∈ events_of db p.id := by
    rw [hsplit]
    exact List.mem_append_right _ (List.mem_cons_self e0 post)
  have hwf0 := hwf e0 he0mem
  have hse0ver : e0.state_after.version = some v := by
    rw [hwf0.2.2.2.2.2.1, he0]
  refine ⟨e0.state_after, hsnap, ?_⟩
  by_cases hveq : v = p.version
  · have hrp : replay_forward db p.id v p.version e0.state_after = e0.state_after := by
      unfold replay_forward
      rw [if_pos (by omega)]
    have hpost0 : post = [] := by
      have hz : ((0:Int) + Int.ofNat p.version.toNat - v).toNat = 0 := by
        simp only [Int.ofNat_eq_natCast]
        omega
      rw [hz] at hpost
      exact List.map_eq_nil_iff.1 hpost
    have he0last : e0 = elast := by
      rw [hsplit, hpost0] at hlastq
      rw [show (pre ++ e0 :: ([] : List PessoaEvent)) = pre ++ [e0] from rfl] at hlastq
      rw [List.getLast?_concat] at hlastq
      exact Option.some.inj hlastq
    rw [hrp]
    constructor
    · rw [he0last, hlasts]
      exact content_eq_refl _
    · exact hse0ver
  · have hvlt : v < p.version := by omega
    have hpostb : ∀ x ∈ post, v < x.new_version ∧ x.new_version ≤ p.version := by
      intro x hx
      have hmem := List.mem_map_of_mem (fun e => e.new_version) hx
      rw [hpost, mem_versions_from] at hmem
      simp only [Int.ofNat_eq_natCast] at hmem
      omega
    have hsorted : post.Pairwise fun a b => a.new_version ≤ b.new_version := by
      have hnd : (post.map fun e => e.new_version).Pairwise (· ≤ ·) := by
        rw [hpost]
        exact versions_from_pairwise _ _
      rw [List.pairwise_map] at hnd
      exact hnd
    have hrp : replay_forward db p.id v p.version e0.state_after =
        post.foldl (fun acc ev => apply_changes acc ev.changes) e0.state_after := by
      unfold replay_forward
      rw [if_neg (show ¬ p.version ≤ v by omega)]
      rw [replay_filter_eq db p.id v p.version, hsplit,
        filter_range_split pre post e0 v p.version hpre he0 hpostb,
        sort_by_version_of_sorted post hsorted]
    rw [hrp]
    have hchainsub : List.Chain' chain_step (e0 :: post) := by
      rw [hsplit] at hch
      exact (List.chain'_append.1 hch).2.1
    have hchver : ∀ x ∈ post, x.changes.version = none := by
      intro x hx
      have hxev : x ∈ events_of db p.id := by
        rw [hsplit]
        exact List.mem_append_right _ (List.mem_cons_of_mem _ hx)
      exact (hwf x hxev).2.2.1
    have hfold := fold_apply_chain post e0 e0.state_after hchainsub hchver (content_eq_refl _)
    have hlast2 : ((e0 :: post).getLast (List.cons_ne_nil e0 post)) = elast := by
      rw [hsplit] at hlastq
      rw [List.getLast?_append_of_ne_nil _ (List.cons_ne_nil e0 post)] at hlastq
      rw [List.getLast?_eq_getLast _ (List.cons_ne_nil e0 post)] at hlastq
      exact Option.some.inj hlastq
    constructor
    · rw [← hlasts, ← hlast2]
      exact hfold.1
    · rw [hfold.2, hse0ver]

theorem reach_db_a : Reachable db_a :=
  Reachable.step init_db (.create pay_a) Reachable.init

theorem reach_db_b : Reachable db_b :=
  Reachable.step db_a (.patch 1 pay_b) reach_db_a

/- ------------------------------------------------------------------
Counterexamples and witnesses.
------------------------------------------------------------------ -/
/-- C1 counterexample: a successful replay-path patch (claimed version 1,
current version 2) whose payload provides only `cpf`, yet the appended
event's `changes` also carries `nome` and `data_nascimento` — fields the
client never touched — so the recorded delta is not the provided
change-set. -/
theorem replay_event_intent_cex :
    pay_c.version = 1 ∧ p_b.version = 2 ∧
    (provided_changes_of pay_c).nome = none ∧
    (provided_changes_of pay_c).data_nascimento = none ∧
    patch_pessoa db_b 1 pay_c = .ok (p_c, db_c) ∧
    db_c.events.getLast? = some ev3 ∧
    ev3.changes.nome = some "B" ∧
    ev3.changes.data_nascimento = some "2000-01-01" ∧
    ev3.changes ≠ provided_changes_of pay_c :=
  ⟨rfl, rfl, rfl, rfl, rfl, rfl, rfl, rfl, by decide⟩

/-- C1 witness: the amended statement at the concrete replay-path run. -/
theorem patch_replay_event_delta_witness :
    p_c.version = p_b.version + 1 ∧
    ∃ e, db_c.events = db_b.events ++ [e] ∧
      e.base_version = p_b.version ∧ e.new_version = p_b.version + 1 ∧
      e.changes = ({ nome := some p_c.nome, cpf := some p_c.cpf, data_nascimento := some p_c.data_nascimento } : JDict) :=
  patch_replay_event_delta db_b 1 pay_c p_b p_c db_c rfl (by decide) (by decide) rfl

/-- C2 witness: the concrete replay-path run of the spec's example — the
other actor's `nome := \"B\"` survives, the stale client's `cpf := \"123\"`
is applied, and the result is version 3. -/
theorem patch_replay_final_state_witness :
    (p_c.version = p_b.version + 1 ∧
    ∃ base, snapshot_at_version db_b 1 pay_c.version = .ok base ∧
      (replay_forward db_b 1 pay_c.version p_b.version (apply_changes base (provided_changes_of pay_c))).nome = some p_c.nome ∧
      (replay_forward db_b 1 pay_c.version p_b.version (apply_changes base (provided_changes_of pay_c))).cpf = some p_c.cpf ∧
      (replay_forward db_b 1 pay_c.version p_b.version (apply_changes base (provided_changes_of pay_c))).data_nascimento = some p_c.data_nascimento) ∧
    p_c.nome = "B" ∧ p_c.cpf = "123" ∧ p_c.version = 3 :=
  ⟨patch_replay_final_state db_b 1 pay_c p_b p_c db_c rfl (by decide) (by decide) rfl, rfl, rfl, rfl⟩

/-- C3 counterexample: a patch claiming version 9 on an entity at version 2
with an empty payload does not fail `VersionAhead`; it returns the
unchanged row and database. -/
theorem patch_ahead_empty_noop_cex :
    find_active_pessoa db_b 1 = some p_b ∧ p_b.version = 2 ∧
    patch_pessoa db_b 1 { version := 9 } = .ok (p_b, db_b) ∧
    run_op db_b (.patch 1 { version := 9 }) = db_b :=
  ⟨rfl, rfl, rfl, rfl⟩

/-- C3 witness: the amended behavior at claimed version 9 over current
version 2 — no-op on an empty payload, `VersionAhead` on a non-empty
one. -/
theorem patch_ahead_behavior_witness :
    patch_pessoa db_b 1 { version := 9 } = .ok (p_b, db_b) ∧
    patch_pessoa db_b 1 { version := 9, nome := some "Z" } = .error .versionAhead :=
  ⟨(patch_ahead_behavior db_b 1 { version := 9 } p_b rfl (by decide) (by decide) (by decide)).1 (by decide),
   (patch_ahead_behavior db_b 1 { version := 9, nome := some "Z" } p_b rfl (by decide) (by decide) (by decide)).2 (by decide)⟩

/-- C4 counterexample: a delete claiming version 5 on an entity at version
1 is not rejected — it succeeds, soft-deleting the row and bumping the
version to 2. -/
theorem delete_ahead_accepted_cex :
    find_active_pessoa db_a 1 = some p_a ∧ p_a.version = 1 ∧ ((1:Int) < 5) ∧
    delete_pessoa db_a 1 5 = .ok (p_a_del5, db_a_del5) ∧
    p_a_del5.deleted = true ∧ p_a_del5.version = 2 :=
  ⟨rfl, rfl, by decide, rfl, rfl, rfl⟩

/-- C4 witness: the amended statement at version 2 — a stale claimed
version 1 is rejected, a claimed version equal to the current succeeds. -/
theorem delete_version_check_witness :
    (delete_pessoa db_b 1 1 = .error .staleDelete ∧ run_op db_b (.del 1 1) = db_b) ∧
    (∃ p' db', delete_pessoa db_b 1 2 = .ok (p', db') ∧
      p'.deleted = true ∧ p'.version = p_b.version + 1 ∧ p'.id = p_b.id ∧
      ∃ e, db'.events = db_b.events ++ [e] ∧ e.base_version = p_b.version ∧
        e.new_version = p_b.version + 1 ∧ e.changes = ({ deleted := some true } : JDict)) :=
  ⟨(delete_version_check db_b 1 1 p_b rfl).1 (by decide),
   (delete_version_check db_b 1 2 p_b rfl).2 (by decide)⟩

/-- C5 counterexample: after create (v1) and patch (v2), the snapshot at
version 1 replayed forward to version 2 agrees with the current snapshot on
the content keys but keeps `version = 1` in the dict, so it is not equal to
the current snapshot. -/
theorem snapshot_replay_version_key_cex :
    find_active_pessoa db_b 1 = some p_b ∧ p_b.version = 2 ∧
    snapshot_at_version db_b 1 1 = .ok s1 ∧
    (replay_forward db_b 1 1 2 s1).version = some 1 ∧
    (pessoa_to_dict p_b).version = some 2 ∧
    replay_forward db_b 1 1 2 s1 ≠ pessoa_to_dict p_b :=
  ⟨rfl, rfl, rfl, rfl, rfl, by decide⟩

/-- C5 witness: the amended statement at the concrete log, version 1 of an
entity currently at version 2. -/
theorem snapshot_replay_reconstruction_witness :
    ∃ s, snapshot_at_version db_b p_b.id 1 = .ok s ∧
      content_eq (replay_forward db_b p_b.id 1 p_b.version s) (pessoa_to_dict p_b) ∧
      (replay_forward db_b p_b.id 1 p_b.version s).version = some 1 :=
  snapshot_replay_reconstruction db_b reach_db_b p_b (by decide) 1 (by decide) (by decide)

/-- C6 witness: the contiguity statement at the concrete two-event log. -/
theorem version_log_contiguity_witness :
    (((events_of db_b 1).map fun e => e.new_version) = versions_list p_b.version) ∧
    ((events_of db_b 1).map fun e => e.new_version).Nodup :=
  ⟨((version_log_contiguity db_b reach_db_b).1 p_b (by decide)).1,
   ((version_log_contiguity db_b reach_db_b).1 p_b (by decide)).2.1⟩

/-- C7 witness: the spec's example — entity at version 3, patch with
claimed version 3 and `nome := "B"` gives version 4 and the event
`base = 3, new = 4, changes = {nome := "B"}`. -/
theorem patch_direct_path_witness :
    ∃ p' db', patch_pessoa db_v3 1 pay_c7 = .ok (p', db') ∧
      p'.version = p_v3.version + 1 ∧
      p'.nome = pay_c7.nome.getD p_v3.nome ∧
      p'.cpf = pay_c7.cpf.getD p_v3.cpf ∧
      p'.data_nascimento = pay_c7.data_nascimento.getD p_v3.data_nascimento ∧
      p'.deleted = p_v3.deleted ∧
      ∃ e, db'.events = db_v3.events ++ [e] ∧
        e.base_version = p_v3.version ∧ e.new_version = p_v3.version + 1 ∧
        e.changes = provided_changes_of pay_c7 :=
  patch_direct_path db_v3 1 pay_c7 p_v3 rfl (by decide) (by decide) (by decide) (by decide)

/-- C8 witness: claimed version 0 with a non-trivial payload fails
`InvalidVersion` and leaves the database unchanged. -/
theorem patch_invalid_version_witness :
    patch_pessoa db_b 1 { version := 0, nome := some "Z" } = .error .invalidVersion ∧
      run_op db_b (.patch 1 { version := 0, nome := some "Z" }) = db_b :=
  patch_invalid_version db_b 1 { version := 0, nome := some "Z" } p_b rfl (by decide)

/-- C10 witness: after the soft delete, both patch and delete on the id
fail `NotFound` and the database is untouched. -/
theorem deleted_rows_invisible_witness :
    patch_pessoa db_del 1 { version := 2, nome := some "Z" } = .error .notFound ∧
    delete_pessoa db_del 1 2 = .error .notFound ∧
    run_op db_del (.patch 1 { version := 2, nome := some "Z" }) = db_del ∧
    run_op db_del (.del 1 2) = db_del :=
  deleted_rows_invisible db_del 1 2 { version := 2, nome := some "Z" } (by decide)
